import Mathlib

/-! Kalkulator: a stack calculator reading postfix commands from standard input.

Shallow embedding of `src/Kalkulator.cpp`.

* `std::string` is the list of its characters (`List Char`).
* `std::stack<int>` is a `List Int` whose head is the top; `int` is the 32-bit
  two's complement integer. The results of `a + b` and `a * b` are reduced by `wrap_int`,
  the value the usual targets compute (the C++ standard leaves signed overflow undefined).
* `std::cout` is the list of characters written so far.
* `std::cin` is the list of characters not yet read; `getline` splits off a line.
* Library calls whose precondition is violated (`top`/`pop` on an empty stack) and
  exceptions thrown by `std::stoi` are explicit `Fault` values.
-/

namespace Kalkulator

/-! ## Data model -/

/-- Kinds of commands understood by the calculator (`enum class Command_kind`). -/
inductive Command_kind where
  | Operator
  | Value
  deriving DecidableEq, Repr

/-- A command given to the calculator (`struct Command`). -/
structure Command where
  kind : Command_kind
  value : List Char
  deriving DecidableEq, Repr

/-- Abnormal ends of the process: a violated library precondition or an uncaught exception. -/
inductive Fault where
  /-- Call of `std::stack::top` or `pop` on an empty stack (undefined behaviour). -/
  | empty_stack
  /-- Exception `std::invalid_argument` of `std::stoi`: no conversion could be performed. -/
  | invalid_argument
  /-- Exception `std::out_of_range` of `std::stoi`: the value does not fit an `int`. -/
  | out_of_range
  deriving DecidableEq, Repr

instance instDecidableEqExcept {ε α : Type} [DecidableEq ε] [DecidableEq α] :
    DecidableEq (Except ε α)
  | Except.ok a, Except.ok b =>
    if h : a = b then isTrue (by rw [h]) else isFalse (fun h1 => h (Except.ok.inj h1))
  | Except.error a, Except.error b =>
    if h : a = b then isTrue (by rw [h]) else isFalse (fun h1 => h (Except.error.inj h1))
  | Except.ok _, Except.error _ => isFalse (fun h => Except.noConfusion h)
  | Except.error _, Except.ok _ => isFalse (fun h => Except.noConfusion h)

/-- The machine state the program acts on: `calculator_stack` (top first) and what was
written to `std::cout`. -/
structure Calc where
  stack : List Int
  out : List Char
  deriving DecidableEq, Repr

/-- Result of running commands: the `while` loop goes on (`running`), `main` returned
(`exited` with the exit code), or the process ended abnormally (`crashed`, with the state
reached before the failing command). -/
inductive Outcome where
  | running (c : Calc)
  | exited (code : Nat) (c : Calc)
  | crashed (f : Fault) (c : Calc)
  deriving DecidableEq, Repr

/-- The state an outcome carries. -/
def Outcome.calc : Outcome → Calc
  | Outcome.running c => c
  | Outcome.exited _ c => c
  | Outcome.crashed _ c => c

/-! ## The `int` type and the library functions used by the program -/

/-- Smallest value of `int`. -/
def INT_MIN : Int := -2147483648

/-- Largest value of `int`. -/
def INT_MAX : Int := 2147483647

/-- Membership of the range of `int`. -/
def in_int_range (v : Int) : Prop := INT_MIN ≤ v ∧ v ≤ INT_MAX

instance (v : Int) : Decidable (in_int_range v) := by
  unfold in_int_range; infer_instance

/-- Reduction of a mathematical integer to the 32-bit two's complement `int`. -/
def wrap_int (v : Int) : Int := (v + 2147483648) % 4294967296 - 2147483648

/-- Decimal text written by `std::cout << int`. -/
def decimal : Int → List Char
  | Int.ofNat n => Nat.toDigits 10 n
  | Int.negSucc n => '-' :: Nat.toDigits 10 (n + 1)

/-- The line terminator written by `std::endl`. -/
def endl : List Char := ['\n']

/-- The characters `isspace` accepts in the C locale. -/
def isspace (ch : Char) : Bool :=
  ch = ' ' || ch = '\t' || ch = '\n' || ch = '\x0b' || ch = '\x0c' || ch = '\r'

/-- The decimal digits. -/
def isdigit (ch : Char) : Bool := decide ('0'.toNat ≤ ch.toNat ∧ ch.toNat ≤ '9'.toNat)

/-- Value of a run of decimal digits, most significant first. -/
def digits_value (ds : List Char) : Nat :=
  ds.foldl (fun acc d => 10 * acc + (d.toNat - '0'.toNat)) 0

/-- The optional sign read by `std::stoi`: whether it is a minus, and the text after it. -/
def stoi_sign (body : List Char) : Bool × List Char :=
  match body with
  | [] => (false, [])
  | ch :: r => if ch = '-' then (true, r) else if ch = '+' then (false, r) else (false, body)

/-- The conversion made by `std::stoi` of the digits `ds` read after the sign. -/
def stoi_convert (negative : Bool) (ds : List Char) : Except Fault Int :=
  if ds = [] then Except.error Fault.invalid_argument
  else
    let v : Int := if negative then -(digits_value ds : Int) else (digits_value ds : Int)
    if in_int_range v then Except.ok v else Except.error Fault.out_of_range

/-- The library function `std::stoi(str)` (base 10): skip leading white space, read an
optional sign and the longest run of digits; throw `std::invalid_argument` when there is
no digit and `std::out_of_range` when the value is not an `int`. Trailing characters are
ignored. -/
def stoi (str : List Char) : Except Fault Int :=
  let signed := stoi_sign (str.dropWhile isspace)
  stoi_convert signed.1 (signed.2.takeWhile isdigit)

/-- The library function `std::getline(std::cin, line)`: the characters up to the first
newline (which is consumed), whether `std::cin.eof()` holds afterwards, and the rest of
the input. -/
def getline : List Char → List Char × Bool × List Char
  | [] => ([], true, [])
  | ch :: rest =>
    if ch = '\n' then ([], false, rest)
    else
      let r := getline rest
      (ch :: r.1, r.2.1, r.2.2)

/-! ## `get_input` -/

/-- One iteration of the splitting loop of `get_input`, on the pair of `elements` and
`token`. -/
def split_step (st : List (List Char) × List Char) (each : Char) :
    List (List Char) × List Char :=
  if each = ' ' ∧ st.2 ≠ [] then (st.1 ++ [st.2], [])
  else if each = ' ' then st
  else (st.1, st.2 ++ [each])

/-- The splitting loop of `get_input`: the `elements` collected from `line`. -/
def split_elements (line : List Char) : List (List Char) :=
  (line.foldl split_step ([], [])).1

/-- The set of operators recognised by the calculator. -/
def operators : List (List Char) := [['q'], ['p'], ['+'], ['-'], ['*'], ['/']]

/-- One iteration of the classifying loop of `get_input`. -/
def classify_step (commands : List Command) (each : List Char) : List Command :=
  if each ∈ operators then commands ++ [Command.mk Command_kind.Operator each]
  else commands ++ [Command.mk Command_kind.Value each]

/-- The classifying loop of `get_input`. -/
def classify (elements : List (List Char)) : List Command :=
  elements.foldl classify_step []

/-- The function `get_input`, given the line `std::getline` read and the value of
`std::cin.eof()` after the read. -/
def get_input (line : List Char) (eof : Bool) : List Command :=
  let line1 := line ++ [' ']
  let line2 := if eof then line1 ++ ['q', ' '] else line1
  classify (split_elements line2)

/-! ## `execute_operator` and `main` -/

/-- The function `execute_operator`. -/
def execute_operator (c : Calc) (command : Command) : Except Fault Calc :=
  if command.value = ['p'] then
    match c.stack with
    | [] => Except.error Fault.empty_stack
    | top :: _ => Except.ok (Calc.mk c.stack (c.out ++ decimal top ++ endl))
  else if command.value = ['+'] then
    match c.stack with
    | [] => Except.error Fault.empty_stack
    | [_] => Except.error Fault.empty_stack
    | a :: b :: rest => Except.ok (Calc.mk (wrap_int (a + b) :: rest) c.out)
  else if command.value = ['*'] then
    match c.stack with
    | [] => Except.error Fault.empty_stack
    | [_] => Except.error Fault.empty_stack
    | a :: b :: rest => Except.ok (Calc.mk (wrap_int (a * b) :: rest) c.out)
  else Except.ok c

/-- The body of the `for` loop of `main`: the `switch` on the kind of one command. -/
def execute_command (c : Calc) (each : Command) : Outcome :=
  match each.kind with
  | Command_kind.Operator =>
    if each.value = ['q'] then Outcome.exited 0 c
    else
      match execute_operator c each with
      | Except.ok c1 => Outcome.running c1
      | Except.error f => Outcome.crashed f c
  | Command_kind.Value =>
    match stoi each.value with
    | Except.ok v => Outcome.running (Calc.mk (v :: c.stack) c.out)
    | Except.error f => Outcome.crashed f c

/-- The `for` loop of `main` over the commands of one line. -/
def run_commands : List Command → Calc → Outcome
  | [], c => Outcome.running c
  | each :: rest, c =>
    match execute_command c each with
    | Outcome.running c1 => run_commands rest c1
    | r => r

/-- The `while (true)` loop of `main`, bounded by a number of iterations: `none` when the
bound is reached before the loop is left. -/
def main_loop : Nat → List Char → Calc → Option Outcome
  | 0, _, _ => none
  | fuel + 1, input, c =>
    let r := getline input
    match run_commands (get_input r.1 r.2.1) c with
    | Outcome.running c1 => main_loop fuel r.2.2 c1
    | o => some o

/-- The function `main` on the standard input `input`: the stack starts empty and nothing
has been written. Every iteration but the last consumes a newline, so `input.length + 1`
iterations are enough (see `main_loop_total`). -/
def main (input : List Char) : Option Outcome :=
  main_loop (input.length + 1) input (Calc.mk [] [])

/-- Shorthand for an `Operator` command. -/
def op (symbol : List Char) : Command := Command.mk Command_kind.Operator symbol

/-- Shorthand for a `Value` command. -/
def val (literal : List Char) : Command := Command.mk Command_kind.Value literal

/-- The wording of the specification for the tokens of a line: split `line` at every
character satisfying `sep` and keep the non-empty pieces, that is, the maximal runs of
characters that are not separators, in order. -/
def maximal_runs (sep : Char → Bool) (line : List Char) : List (List Char) :=
  (line.splitOnP sep).filter (fun t => !t.isEmpty)

/-- The command `get_input` makes of one token. -/
def classify_one (each : List Char) : Command :=
  if each ∈ operators then Command.mk Command_kind.Operator each
  else Command.mk Command_kind.Value each

/-- What a `q` does to the outcome of the commands before it: a running calculator
exits with code 0, any other outcome stands. -/
def quit_after : Outcome → Outcome
  | Outcome.running c => Outcome.exited 0 c
  | o => o

/-- Whether a fault is a condition the running program detects: the exceptions of
`std::stoi` are thrown by a check and end the process; `top` and `pop` on an empty
`std::stack` check nothing, the behaviour from there on is undefined. -/
def Fault.detected : Fault → Bool
  | Fault.empty_stack => false
  | Fault.invalid_argument => true
  | Fault.out_of_range => true

/-- The wording of the specification for a valid signed decimal integer: an optional sign
followed by one or more decimal digits and nothing else. -/
def is_integer_literal (s : List Char) : Bool :=
  match s with
  | [] => false
  | ch :: r =>
    if ch = '-' ∨ ch = '+' then !r.isEmpty && r.all isdigit else s.all isdigit

/-- The integer a valid signed decimal integer denotes. -/
def literal_value (s : List Char) : Int :=
  match s with
  | [] => 0
  | ch :: r =>
    if ch = '-' then -(digits_value r : Int)
    else if ch = '+' then (digits_value r : Int)
    else (digits_value s : Int)

/-! ## The splitting loop -/

theorem split_step_elements (els : List (List Char)) (tok : List Char) (each : Char) :
    split_step (els, tok) each =
      (els ++ (split_step ([], tok) each).1, (split_step ([], tok) each).2) := by
  unfold split_step
  by_cases h1 : each = ' ' <;> by_cases h2 : tok = [] <;> simp [h1, h2]

theorem foldl_split_step_elements (line : List Char) (els : List (List Char))
    (tok : List Char) :
    line.foldl split_step (els, tok) =
      (els ++ (line.foldl split_step ([], tok)).1, (line.foldl split_step ([], tok)).2) := by
  induction line generalizing els tok with
  | nil => simp
  | cons x xs ih =>
    simp only [List.foldl_cons]
    rw [split_step_elements els tok x, ih, ih (split_step ([], tok) x).1]
    simp [List.append_assoc]

theorem foldl_split_step_space (line tok : List Char) :
    (line ++ [' ']).foldl split_step ([], tok) =
      (((line.splitOnP (fun ch => decide (ch = ' '))).modifyHead (fun t => tok ++ t)).filter
        (fun t => !t.isEmpty), []) := by
  induction line generalizing tok with
  | nil =>
    by_cases h : tok = []
    · simp [split_step, h]
    · cases tok with
      | nil => exact absurd rfl h
      | cons a as => simp [split_step]
  | cons x xs ih =>
    have hne := List.splitOnP_ne_nil (fun ch => decide (ch = ' ')) xs
    cases hsp : List.splitOnP (fun ch => decide (ch = ' ')) xs with
    | nil => exact absurd hsp hne
    | cons t ts =>
      simp only [List.cons_append, List.foldl_cons, List.splitOnP_cons]
      by_cases hx : x = ' '
      · by_cases h : tok = []
        · have h0 := ih []
          rw [hsp] at h0
          simp [split_step, hx, h, hsp] at h0 ⊢
          rw [h0]
        · have h0 := ih []
          rw [hsp] at h0
          have hs : split_step ([], tok) x = ([tok], []) := by simp [split_step, hx, h]
          rw [hs, foldl_split_step_elements, h0]
          cases tok with
          | nil => exact absurd rfl h
          | cons a as => simp [hx, hsp]
      · have hs : split_step ([], tok) x = ([], tok ++ [x]) := by simp [split_step, hx]
        rw [hs, ih (tok ++ [x]), hsp]
        simp [hx]

theorem split_elements_space (line : List Char) :
    split_elements (line ++ [' ']) = maximal_runs (fun ch => decide (ch = ' ')) line := by
  unfold split_elements maximal_runs
  rw [foldl_split_step_space]
  have hne := List.splitOnP_ne_nil (fun ch => decide (ch = ' ')) line
  cases hsp : List.splitOnP (fun ch => decide (ch = ' ')) line with
  | nil => exact absurd hsp hne
  | cons t ts => simp

theorem split_elements_eof (line : List Char) :
    split_elements (line ++ [' '] ++ ['q', ' ']) = split_elements (line ++ [' ']) ++ [['q']] := by
  unfold split_elements
  rw [List.foldl_append, foldl_split_step_space]
  simp [split_step]

/-! ## The classifying loop -/

theorem foldl_classify_step (elements : List (List Char)) (commands : List Command) :
    elements.foldl classify_step commands = commands ++ elements.map classify_one := by
  induction elements generalizing commands with
  | nil => simp
  | cons x xs ih =>
    simp only [List.foldl_cons, List.map_cons]
    rw [ih]
    by_cases h : x ∈ operators <;> simp [classify_step, classify_one, h]

theorem classify_eq_map (elements : List (List Char)) :
    classify elements = elements.map classify_one := by
  unfold classify
  rw [foldl_classify_step]
  simp

/-! ## Decimal text and `stoi` -/

theorem digitChar_spec :
    ∀ k, k < 10 → isdigit (Nat.digitChar k) = true ∧
      (Nat.digitChar k).toNat - '0'.toNat = k := by
  decide

theorem isdigit_not_special (ch : Char) (h : isdigit ch = true) :
    isspace ch = false ∧ ch ≠ '-' ∧ ch ≠ '+' := by
  refine ⟨?_, ?_, ?_⟩
  · cases hs : isspace ch with
    | false => rfl
    | true =>
      simp only [isspace, Bool.or_eq_true, decide_eq_true_eq] at hs
      rcases hs with ((((h1 | h1) | h1) | h1) | h1) | h1 <;> (subst h1; exact absurd h (by decide))
  · intro h1; subst h1; exact absurd h (by decide)
  · intro h1; subst h1; exact absurd h (by decide)

theorem toDigitsCore_spec (fuel : Nat) :
    ∀ (n : Nat) (ds : List Char), n < fuel → (∀ ch ∈ ds, isdigit ch = true) →
      (∀ ch ∈ Nat.toDigitsCore 10 fuel n ds, isdigit ch = true) ∧
      Nat.toDigitsCore 10 fuel n ds ≠ [] ∧
      (Nat.toDigitsCore 10 fuel n ds).foldl
          (fun acc d => 10 * acc + (d.toNat - '0'.toNat)) 0 =
        ds.foldl (fun acc d => 10 * acc + (d.toNat - '0'.toNat)) n := by
  induction fuel with
  | zero => intro n ds h; omega
  | succ fuel ih =>
    intro n ds hn hds
    have hd := digitChar_spec (n % 10) (Nat.mod_lt n (by decide))
    have hds1 : ∀ ch ∈ Nat.digitChar (n % 10) :: ds, isdigit ch = true := by
      intro ch hch
      rcases List.mem_cons.mp hch with h | h
      · rw [h]; exact hd.1
      · exact hds ch h
    unfold Nat.toDigitsCore
    by_cases h0 : n / 10 = 0
    · simp only [h0, if_true]
      refine ⟨hds1, List.cons_ne_nil _ _, ?_⟩
      simp only [List.foldl_cons, hd.2]
      have : n % 10 = n := Nat.mod_eq_of_lt (by omega)
      rw [this]; simp
    · simp only [h0, if_false]
      have hlt : n / 10 < fuel := by omega
      obtain ⟨h1, h2, h3⟩ := ih (n / 10) (Nat.digitChar (n % 10) :: ds) hlt hds1
      refine ⟨h1, h2, ?_⟩
      rw [h3]
      simp only [List.foldl_cons, hd.2]
      have : 10 * (n / 10) + n % 10 = n := Nat.div_add_mod n 10
      rw [this]

theorem toDigits_spec (n : Nat) :
    (∀ ch ∈ Nat.toDigits 10 n, isdigit ch = true) ∧ Nat.toDigits 10 n ≠ [] ∧
      digits_value (Nat.toDigits 10 n) = n := by
  have h := toDigitsCore_spec (n + 1) n [] (Nat.lt_succ_self n) (by simp)
  exact ⟨h.1, h.2.1, by simpa [digits_value, Nat.toDigits] using h.2.2⟩

theorem takeWhile_isdigit_all (ds : List Char) (h : ∀ ch ∈ ds, isdigit ch = true) :
    ds.takeWhile isdigit = ds := by
  induction ds with
  | nil => rfl
  | cons x xs ih =>
    rw [List.takeWhile_cons, h x (List.mem_cons_self x xs)]
    simp only [if_true]
    rw [ih (fun ch hch => h ch (List.mem_cons_of_mem x hch))]

theorem stoi_toDigits (n : Nat) (h : in_int_range (n : Int)) :
    stoi (Nat.toDigits 10 n) = Except.ok (n : Int) := by
  obtain ⟨hall, hne, hval⟩ := toDigits_spec n
  cases hds : Nat.toDigits 10 n with
  | nil => exact absurd hds hne
  | cons d ds =>
    rw [hds] at hall hval
    have hd := isdigit_not_special d (hall d (List.mem_cons_self d ds))
    have htw := takeWhile_isdigit_all (d :: ds) hall
    have hdrop : (d :: ds).dropWhile isspace = d :: ds := by
      rw [List.dropWhile_cons, hd.1]; rfl
    have hsign : stoi_sign (d :: ds) = (false, d :: ds) := by
      show (if d = '-' then (true, ds) else if d = '+' then (false, ds) else (false, d :: ds))
        = (false, d :: ds)
      rw [if_neg hd.2.1, if_neg hd.2.2]
    unfold stoi
    rw [hdrop, hsign]
    show stoi_convert false ((d :: ds).takeWhile isdigit) = _
    rw [htw]
    unfold stoi_convert
    rw [if_neg (List.cons_ne_nil d ds), hval]
    simp [h]

theorem stoi_neg_toDigits (n : Nat) (h : in_int_range (-(n : Int))) :
    stoi ('-' :: Nat.toDigits 10 n) = Except.ok (-(n : Int)) := by
  obtain ⟨hall, hne, hval⟩ := toDigits_spec n
  have htw := takeWhile_isdigit_all _ hall
  have hdrop : ('-' :: Nat.toDigits 10 n).dropWhile isspace = '-' :: Nat.toDigits 10 n := by
    rw [List.dropWhile_cons]; rfl
  have hsign : stoi_sign ('-' :: Nat.toDigits 10 n) = (true, Nat.toDigits 10 n) := by
    rfl
  unfold stoi
  rw [hdrop, hsign]
  show stoi_convert true ((Nat.toDigits 10 n).takeWhile isdigit) = _
  rw [htw]
  unfold stoi_convert
  rw [if_neg hne, hval]
  simp [h]

theorem stoi_decimal (v : Int) (h : in_int_range v) : stoi (decimal v) = Except.ok v := by
  cases v with
  | ofNat n => exact stoi_toDigits n h
  | negSucc n =>
    have h1 : Int.negSucc n = -((n + 1 : Nat) : Int) := Int.negSucc_eq n
    unfold decimal
    rw [h1] at h ⊢
    exact stoi_neg_toDigits (n + 1) h

theorem decimal_no_newline (v : Int) : '\n' ∉ decimal v := by
  have key : ∀ n : Nat, '\n' ∉ Nat.toDigits 10 n := by
    intro n hmem
    exact absurd ((toDigits_spec n).1 _ hmem) (by decide)
  cases v with
  | ofNat n => exact key n
  | negSucc n =>
    unfold decimal
    intro hmem
    rcases List.mem_cons.mp hmem with h | h
    · exact absurd h (by decide)
    · exact key (n + 1) h

/-! ## The loops of `main` -/

theorem getline_newline (line rest : List Char) (h : '\n' ∉ line) :
    getline (line ++ '\n' :: rest) = (line, false, rest) := by
  induction line with
  | nil => simp [getline]
  | cons x xs ih =>
    have hx : x ≠ '\n' := fun e => h (e ▸ List.mem_cons_self x xs)
    have hxs : '\n' ∉ xs := fun e => h (List.mem_cons_of_mem x e)
    simp [getline, hx, ih hxs]

theorem getline_rest_length (input : List Char) :
    (getline input).2.1 = true ∨ (getline input).2.2.length < input.length := by
  induction input with
  | nil => left; rfl
  | cons x xs ih =>
    by_cases hx : x = '\n'
    · right; simp [getline, hx]
    · rcases ih with h | h
      · left; simp [getline, hx, h]
      · right; simp only [getline, hx, if_false, List.length_cons]; omega

theorem run_commands_append (xs ys : List Command) (c : Calc) :
    run_commands (xs ++ ys) c =
      match run_commands xs c with
      | Outcome.running c1 => run_commands ys c1
      | o => o := by
  induction xs generalizing c with
  | nil => simp [run_commands]
  | cons x xs ih =>
    simp only [List.cons_append, run_commands]
    cases hx : execute_command c x with
    | running c1 => exact ih c1
    | exited code c1 => rfl
    | crashed f c1 => rfl

theorem execute_command_quit (c : Calc) :
    execute_command c (op ['q']) = Outcome.exited 0 c := by
  simp [execute_command, op]

theorem run_commands_quit (pre post : List Command) (c : Calc) :
    run_commands (pre ++ op ['q'] :: post) c = quit_after (run_commands pre c) := by
  rw [run_commands_append]
  cases h : run_commands pre c with
  | running c1 => simp [run_commands, execute_command_quit, quit_after]
  | exited code c1 => rfl
  | crashed f c1 => rfl

theorem execute_command_exited (c c1 : Calc) (each : Command) (code : Nat)
    (h : execute_command c each = Outcome.exited code c1) : each = op ['q'] := by
  obtain ⟨kind, value⟩ := each
  cases kind with
  | Operator =>
    by_cases hq : value = ['q']
    · rw [hq]; rfl
    · simp only [execute_command, hq, if_false] at h
      cases he : execute_operator c (Command.mk Command_kind.Operator value) with
      | ok c2 => rw [he] at h; cases h
      | error f => rw [he] at h; cases h
  | Value =>
    simp only [execute_command] at h
    cases he : stoi value with
    | ok v => rw [he] at h; cases h
    | error f => rw [he] at h; cases h

theorem run_commands_not_exited (pre : List Command) (h : op ['q'] ∉ pre) (c c1 : Calc)
    (code : Nat) : run_commands pre c ≠ Outcome.exited code c1 := by
  induction pre generalizing c with
  | nil => simp [run_commands]
  | cons x xs ih =>
    have hx : x ≠ op ['q'] := fun e => h (e ▸ List.mem_cons_self x xs)
    have hxs : op ['q'] ∉ xs := fun e => h (List.mem_cons_of_mem x e)
    simp only [run_commands]
    cases hc : execute_command c x with
    | running c2 => exact ih hxs c2
    | exited code2 c2 => exact absurd (execute_command_exited c c2 x code2 hc) hx
    | crashed f c2 => simp

theorem run_commands_not_running (cmds : List Command) (h : op ['q'] ∈ cmds) (c c1 : Calc) :
    run_commands cmds c ≠ Outcome.running c1 := by
  obtain ⟨pre, post, rfl⟩ := List.append_of_mem h
  rw [run_commands_quit]
  cases hr : run_commands pre c <;> simp [quit_after]

theorem get_input_eof (line : List Char) :
    get_input line true = get_input line false ++ [op ['q']] := by
  simp only [get_input, if_true, Bool.false_eq_true, if_false]
  rw [split_elements_eof, classify_eq_map, classify_eq_map]
  simp [classify_one, operators, op]

theorem main_loop_total (fuel : Nat) :
    ∀ (input : List Char) (c : Calc), input.length < fuel →
      ∃ o, main_loop fuel input c = some o ∧ ∀ c1, o ≠ Outcome.running c1 := by
  induction fuel with
  | zero => intro input c h; omega
  | succ fuel ih =>
    intro input c hfuel
    simp only [main_loop]
    cases hr : run_commands (get_input (getline input).1 (getline input).2.1) c with
    | exited code c1 => exact ⟨_, rfl, by simp⟩
    | crashed f c1 => exact ⟨_, rfl, by simp⟩
    | running c1 =>
      rcases getline_rest_length input with he | hlt
      · rw [he, get_input_eof] at hr
        exact absurd hr (run_commands_not_running _ (by simp) c c1)
      · exact ih _ c1 (by omega)

theorem main_total (input : List Char) :
    ∃ o, main input = some o ∧ ∀ c1, o ≠ Outcome.running c1 :=
  main_loop_total (input.length + 1) input (Calc.mk [] []) (Nat.lt_succ_self _)

theorem main_loop_line (fuel : Nat) (line rest : List Char) (c : Calc) (hline : '\n' ∉ line)
    (hq : op ['q'] ∈ get_input line false) :
    main_loop (fuel + 1) (line ++ '\n' :: rest) c =
      some (run_commands (get_input line false) c) := by
  simp only [main_loop, getline_newline line rest hline]
  cases hr : run_commands (get_input line false) c with
  | exited code c1 => rfl
  | crashed f c1 => rfl
  | running c1 => exact absurd hr (run_commands_not_running _ hq c c1)

theorem wrap_int_of_in_range (v : Int) (h : in_int_range v) : wrap_int v = v := by
  unfold in_int_range INT_MIN INT_MAX at h
  unfold wrap_int
  omega

/-! ## The claims -/

/-- C1, as stated, fails: with `2147483647` on top of `1` (both values of `int`) the
operator `+` does not push the integer sum `2147483648`, which no `int` holds; the 32-bit
result is `-2147483648`. -/
theorem C1_plus_overflow_counterexample :
    in_int_range 2147483647 ∧ in_int_range 1 ∧
    execute_operator (Calc.mk [2147483647, 1] []) (op ['+']) =
      Except.ok (Calc.mk [-2147483648] []) ∧
    execute_operator (Calc.mk [2147483647, 1] []) (op ['+']) ≠
      Except.ok (Calc.mk [2147483647 + 1] []) := by
  decide

/-- C1, amended: for every stack whose top is `a` and whose next element is `b`, with
`a + b` in the range of `int`, `Operator("+")` removes both and pushes the sum `a + b`,
leaves every element below them unchanged and in order, and emits no output; this holds
for `execute_operator` and for the dispatch in `main`. -/
theorem C1_plus_pushes_sum (a b : Int) (rest : List Int) (out : List Char)
    (h : in_int_range (a + b)) :
    execute_operator (Calc.mk (a :: b :: rest) out) (op ['+']) =
      Except.ok (Calc.mk ((a + b) :: rest) out) ∧
    execute_command (Calc.mk (a :: b :: rest) out) (op ['+']) =
      Outcome.running (Calc.mk ((a + b) :: rest) out) := by
  have hw := wrap_int_of_in_range (a + b) h
  have h1 : execute_operator (Calc.mk (a :: b :: rest) out) (op ['+']) =
      Except.ok (Calc.mk ((a + b) :: rest) out) := by
    simp [execute_operator, op, hw]
  refine ⟨h1, ?_⟩
  have hq : (op ['+']).value ≠ ['q'] := by decide
  have hk : (op ['+']).kind = Command_kind.Operator := rfl
  simp only [execute_command, hk, if_neg hq, h1]

/-- Witness of C1 (amended): `4` on top of `3` above `9` becomes `7` above `9`. -/
theorem C1_plus_pushes_sum_witness :
    execute_operator (Calc.mk [4, 3, 9] []) (op ['+']) = Except.ok (Calc.mk [4 + 3, 9] []) ∧
    execute_command (Calc.mk [4, 3, 9] []) (op ['+']) =
      Outcome.running (Calc.mk [4 + 3, 9] []) :=
  C1_plus_pushes_sum 4 3 [9] [] (by decide)

/-- C2, as stated, fails: with `65536` on top of `65536` the operator `*` does not push the
integer product `4294967296`, which no `int` holds; the 32-bit result is `0`. -/
theorem C2_times_overflow_counterexample :
    in_int_range 65536 ∧
    execute_operator (Calc.mk [65536, 65536] []) (op ['*']) = Except.ok (Calc.mk [0] []) ∧
    execute_operator (Calc.mk [65536, 65536] []) (op ['*']) ≠
      Except.ok (Calc.mk [65536 * 65536] []) := by
  decide

/-- C2, amended: for every stack whose top is `a` and whose next element is `b`, with
`a * b` in the range of `int`, `Operator("*")` removes both and pushes the product `a * b`,
leaves every element below them unchanged and emits no output; and the commands
`3`, `5`, `*`, `p` run from an empty stack print `15`, also as a line given to `main`. -/
theorem C2_times_pushes_product (a b : Int) (rest : List Int) (out : List Char)
    (h : in_int_range (a * b)) :
    execute_operator (Calc.mk (a :: b :: rest) out) (op ['*']) =
      Except.ok (Calc.mk ((a * b) :: rest) out) ∧
    execute_command (Calc.mk (a :: b :: rest) out) (op ['*']) =
      Outcome.running (Calc.mk ((a * b) :: rest) out) ∧
    run_commands [val ['3'], val ['5'], op ['*'], op ['p']] (Calc.mk [] []) =
      Outcome.running (Calc.mk [15] ['1', '5', '\n']) ∧
    main ['3', ' ', '5', ' ', '*', ' ', 'p', '\n'] =
      some (Outcome.exited 0 (Calc.mk [15] ['1', '5', '\n'])) := by
  have hw := wrap_int_of_in_range (a * b) h
  have h1 : execute_operator (Calc.mk (a :: b :: rest) out) (op ['*']) =
      Except.ok (Calc.mk ((a * b) :: rest) out) := by
    simp [execute_operator, op, hw]
  refine ⟨h1, ?_, by decide, by decide⟩
  have hq : (op ['*']).value ≠ ['q'] := by decide
  have hk : (op ['*']).kind = Command_kind.Operator := rfl
  simp only [execute_command, hk, if_neg hq, h1]

/-- Witness of C2 (amended): `5` on top of `3` above `9` becomes `15` above `9`. -/
theorem C2_times_pushes_product_witness :
    execute_operator (Calc.mk [5, 3, 9] []) (op ['*']) = Except.ok (Calc.mk [5 * 3, 9] []) ∧
    execute_command (Calc.mk [5, 3, 9] []) (op ['*']) =
      Outcome.running (Calc.mk [5 * 3, 9] []) ∧
    run_commands [val ['3'], val ['5'], op ['*'], op ['p']] (Calc.mk [] []) =
      Outcome.running (Calc.mk [15] ['1', '5', '\n']) ∧
    main ['3', ' ', '5', ' ', '*', ' ', 'p', '\n'] =
      some (Outcome.exited 0 (Calc.mk [15] ['1', '5', '\n'])) :=
  C2_times_pushes_product 5 3 [9] [] (by decide)

/-- C3: for every integer `v` in the range of `int` and every starting state, executing
`Value(decimal text of v)` and then `Operator("p")` writes exactly the decimal text of `v`
followed by a newline and leaves `v` on top of the unchanged starting stack. -/
theorem C3_print_undoes_parse (v : Int) (c : Calc) (h : in_int_range v) :
    run_commands [val (decimal v), op ['p']] c =
      Outcome.running (Calc.mk (v :: c.stack) (c.out ++ decimal v ++ ['\n'])) := by
  have hq : (op ['p']).value ≠ ['q'] := by decide
  have hp : execute_operator (Calc.mk (v :: c.stack) c.out) (op ['p']) =
      Except.ok (Calc.mk (v :: c.stack) (c.out ++ decimal v ++ ['\n'])) := by
    simp [execute_operator, op, endl]
  have h1 : execute_command c (val (decimal v)) =
      Outcome.running (Calc.mk (v :: c.stack) c.out) := by
    simp only [execute_command, val, stoi_decimal v h]
  have h2 : execute_command (Calc.mk (v :: c.stack) c.out) (op ['p']) =
      Outcome.running (Calc.mk (v :: c.stack) (c.out ++ decimal v ++ ['\n'])) := by
    have hk : (op ['p']).kind = Command_kind.Operator := rfl
    simp only [execute_command, hk, if_neg hq, hp]
  simp only [run_commands, h1, h2]

/-- Witness of C3: pushing the text of `-42` on the stack `[7]` and peeking prints `-42`. -/
theorem C3_print_undoes_parse_witness :
    run_commands [val (decimal (-42)), op ['p']] (Calc.mk [7] []) =
      Outcome.running (Calc.mk [-42, 7] ([] ++ decimal (-42) ++ ['\n'])) :=
  C3_print_undoes_parse (-42) (Calc.mk [7] []) (by decide)

/-- C4: for every non-empty stack, `Operator("p")` leaves the stack exactly as it was and
appends to the output exactly one line, the decimal text of the top element followed by
the line terminator (the text itself holds no newline); this holds for `execute_operator`
and for the dispatch in `main`. -/
theorem C4_peek_prints_top (top : Int) (rest : List Int) (out : List Char) :
    execute_operator (Calc.mk (top :: rest) out) (op ['p']) =
      Except.ok (Calc.mk (top :: rest) (out ++ decimal top ++ ['\n'])) ∧
    execute_command (Calc.mk (top :: rest) out) (op ['p']) =
      Outcome.running (Calc.mk (top :: rest) (out ++ decimal top ++ ['\n'])) ∧
    '\n' ∉ decimal top := by
  have hq : (op ['p']).value ≠ ['q'] := by decide
  have hk : (op ['p']).kind = Command_kind.Operator := rfl
  have hp : execute_operator (Calc.mk (top :: rest) out) (op ['p']) =
      Except.ok (Calc.mk (top :: rest) (out ++ decimal top ++ ['\n'])) := by
    simp [execute_operator, op, endl]
  refine ⟨hp, ?_, decimal_no_newline top⟩
  simp only [execute_command, hk, if_neg hq, hp]

/-- C5: evaluation stops at the first `q`. When no `q` stands in `pre`, running
`pre ++ q :: post` gives what running `pre` gives, with exit code 0 where `pre` ran to its
end, whatever `post` is; `pre` itself never exits; a line holding a `q` ends `main`
whatever lines follow; and the line `1 2 + q p`, alone or followed by the line `p`, exits
with code 0 having printed nothing. -/
theorem C5_quit_stops_evaluation (pre post : List Command) (c : Calc)
    (line rest : List Char) (fuel : Nat)
    (hpre : op ['q'] ∉ pre) (hline : '\n' ∉ line) (hq : op ['q'] ∈ get_input line false) :
    run_commands (pre ++ op ['q'] :: post) c = quit_after (run_commands pre c) ∧
    (∀ c1, run_commands pre c = Outcome.running c1 →
      run_commands (pre ++ op ['q'] :: post) c = Outcome.exited 0 c1) ∧
    (∀ code c1, run_commands pre c ≠ Outcome.exited code c1) ∧
    main_loop (fuel + 1) (line ++ '\n' :: rest) c =
      some (run_commands (get_input line false) c) ∧
    main ['1', ' ', '2', ' ', '+', ' ', 'q', ' ', 'p', '\n'] =
      some (Outcome.exited 0 (Calc.mk [3] [])) ∧
    main ['1', ' ', '2', ' ', '+', ' ', 'q', ' ', 'p', '\n', 'p', '\n'] =
      some (Outcome.exited 0 (Calc.mk [3] [])) := by
  refine ⟨run_commands_quit pre post c, ?_, ?_, main_loop_line fuel line rest c hline hq,
    by decide, by decide⟩
  · intro c1 h1
    rw [run_commands_quit, h1]
    rfl
  · intro code c1
    exact run_commands_not_exited pre hpre c c1 code

/-- Witness of C5: the commands `1 2 +` before a `q` followed by `p`, and the line `q`
followed by the line `p`. -/
theorem C5_quit_stops_evaluation_witness :
    run_commands ([val ['1'], val ['2'], op ['+']] ++ op ['q'] :: [op ['p']]) (Calc.mk [] []) =
      quit_after (run_commands [val ['1'], val ['2'], op ['+']] (Calc.mk [] [])) ∧
    (∀ c1, run_commands [val ['1'], val ['2'], op ['+']] (Calc.mk [] []) = Outcome.running c1 →
      run_commands ([val ['1'], val ['2'], op ['+']] ++ op ['q'] :: [op ['p']]) (Calc.mk [] []) =
        Outcome.exited 0 c1) ∧
    (∀ code c1, run_commands [val ['1'], val ['2'], op ['+']] (Calc.mk [] []) ≠
      Outcome.exited code c1) ∧
    main_loop (0 + 1) (['q'] ++ '\n' :: ['p', '\n']) (Calc.mk [] []) =
      some (run_commands (get_input ['q'] false) (Calc.mk [] [])) ∧
    main ['1', ' ', '2', ' ', '+', ' ', 'q', ' ', 'p', '\n'] =
      some (Outcome.exited 0 (Calc.mk [3] [])) ∧
    main ['1', ' ', '2', ' ', '+', ' ', 'q', ' ', 'p', '\n', 'p', '\n'] =
      some (Outcome.exited 0 (Calc.mk [3] [])) :=
  C5_quit_stops_evaluation [val ['1'], val ['2'], op ['+']] [op ['p']] (Calc.mk [] [])
    ['q'] ['p', '\n'] 0 (by decide) (by decide) (by decide)

/-- C6: for every state (the empty stack and one-element stacks included),
`Operator("-")` and `Operator("/")` do nothing: the stack and the output are unchanged and
no fault is raised, in `execute_operator` and in the dispatch of `main`. -/
theorem C6_minus_divide_do_nothing (c : Calc) :
    execute_operator c (op ['-']) = Except.ok c ∧
    execute_operator c (op ['/']) = Except.ok c ∧
    execute_command c (op ['-']) = Outcome.running c ∧
    execute_command c (op ['/']) = Outcome.running c := by
  have h1 : execute_operator c (op ['-']) = Except.ok c := by simp [execute_operator, op]
  have h2 : execute_operator c (op ['/']) = Except.ok c := by simp [execute_operator, op]
  have hq1 : (op ['-']).value ≠ ['q'] := by decide
  have hq2 : (op ['/']).value ≠ ['q'] := by decide
  have hk1 : (op ['-']).kind = Command_kind.Operator := rfl
  have hk2 : (op ['/']).kind = Command_kind.Operator := rfl
  refine ⟨h1, h2, ?_, ?_⟩
  · simp only [execute_command, hk1, if_neg hq1, h1]
  · simp only [execute_command, hk2, if_neg hq2, h2]

/-- C7, as stated, fails: the commands `10`, `3`, `-`, `p` run from an empty stack do not
print `10`. -/
theorem C7_prints_ten_counterexample :
    (run_commands [val ['1', '0'], val ['3'], op ['-'], op ['p']] (Calc.mk [] [])).calc.out ≠
      ['1', '0', '\n'] := by
  decide

/-- C7, amended: the commands `10`, `3`, `-`, `p` run from an empty stack print `3`, the
top of the stack `-` left untouched, and leave `3` above `10`; so does `main` on that
line. -/
theorem C7_prints_three :
    run_commands [val ['1', '0'], val ['3'], op ['-'], op ['p']] (Calc.mk [] []) =
      Outcome.running (Calc.mk [3, 10] ['3', '\n']) ∧
    main ['1', '0', ' ', '3', ' ', '-', ' ', 'p', '\n'] =
      some (Outcome.exited 0 (Calc.mk [3, 10] ['3', '\n'])) := by
  decide

/-- C8: classification is total and one-to-one with the tokens. The commands are as many
as the tokens; the command at position `i` carries the token at position `i`, is an
`Operator` exactly when the token is one of `q`, `p`, `+`, `-`, `*`, `/` and a `Value`
otherwise; and every `Operator` command `get_input` returns has its symbol in that set. -/
theorem C8_classification (elements : List (List Char)) (line : List Char) (eof : Bool) :
    (classify elements).length = elements.length ∧
    (∀ (i : Nat) (t : List Char), elements[i]? = some t →
      ∃ cmd, (classify elements)[i]? = some cmd ∧ cmd.value = t ∧
        (cmd.kind = Command_kind.Operator ↔
          (t = ['q'] ∨ t = ['p'] ∨ t = ['+'] ∨ t = ['-'] ∨ t = ['*'] ∨ t = ['/'])) ∧
        (cmd.kind = Command_kind.Value ↔
          ¬ (t = ['q'] ∨ t = ['p'] ∨ t = ['+'] ∨ t = ['-'] ∨ t = ['*'] ∨ t = ['/']))) ∧
    (∀ cmd ∈ get_input line eof, cmd.kind = Command_kind.Operator →
      (cmd.value = ['q'] ∨ cmd.value = ['p'] ∨ cmd.value = ['+'] ∨ cmd.value = ['-'] ∨
        cmd.value = ['*'] ∨ cmd.value = ['/'])) := by
  have hmem : ∀ t : List Char, t ∈ operators ↔
      (t = ['q'] ∨ t = ['p'] ∨ t = ['+'] ∨ t = ['-'] ∨ t = ['*'] ∨ t = ['/']) := by
    intro t; simp [operators]
  have hone : ∀ t : List Char, (classify_one t).value = t ∧
      ((classify_one t).kind = Command_kind.Operator ↔ t ∈ operators) ∧
      ((classify_one t).kind = Command_kind.Value ↔ ¬ t ∈ operators) := by
    intro t
    by_cases h : t ∈ operators <;> simp [classify_one, h]
  refine ⟨by rw [classify_eq_map, List.length_map], ?_, ?_⟩
  · intro i t hi
    refine ⟨classify_one t, ?_, (hone t).1, ?_, ?_⟩
    · rw [classify_eq_map, List.getElem?_map, hi]; rfl
    · rw [← hmem]; exact (hone t).2.1
    · rw [← hmem]; exact (hone t).2.2
  · intro cmd hcmd hkind
    simp only [get_input] at hcmd
    rw [classify_eq_map, List.mem_map] at hcmd
    obtain ⟨t, -, rfl⟩ := hcmd
    rw [(hone t).1, ← hmem]
    exact (hone t).2.1.mp hkind

/-- Witness of C8: the tokens `12`, `+`, `x` become `Value(12)`, `Operator(+)`,
`Value(x)`. -/
theorem C8_classification_witness :
    classify [['1', '2'], ['+'], ['x']] = [val ['1', '2'], op ['+'], val ['x']] ∧
    (classify [['1', '2'], ['+'], ['x']]).length = [['1', '2'], ['+'], ['x']].length ∧
    ∃ cmd, (classify [['1', '2'], ['+'], ['x']])[1]? = some cmd ∧ cmd.value = ['+'] ∧
      cmd.kind = Command_kind.Operator := by
  obtain ⟨hlen, hidx, -⟩ := C8_classification [['1', '2'], ['+'], ['x']] [] false
  obtain ⟨cmd, h1, h2, h3, -⟩ := hidx 1 ['+'] rfl
  exact ⟨by decide, hlen, cmd, h1, h2, h3.mpr (by simp)⟩

/-- C9, as stated, fails: a tab does not separate tokens. The line `1<tab>2` gives the
single token `1<tab>2`, a `Value`, where the runs of non-whitespace characters are `1` and
`2`. -/
theorem C9_tab_counterexample :
    split_elements (['1', '\t', '2'] ++ [' ']) = [['1', '\t', '2']] ∧
    maximal_runs isspace ['1', '\t', '2'] = [['1'], ['2']] ∧
    split_elements (['1', '\t', '2'] ++ [' ']) ≠ maximal_runs isspace ['1', '\t', '2'] ∧
    get_input ['1', '\t', '2'] false = [val ['1', '\t', '2']] := by
  decide

/-- C9, amended: for every input line the tokenizer splits on the space character only:
the tokens are, in order, the non-empty pieces of the line between spaces, so runs of
spaces collapse and leading or trailing spaces yield no empty token; the commands of the
line are these tokens classified. -/
theorem C9_splits_on_space (line : List Char) :
    split_elements (line ++ [' ']) = maximal_runs (fun ch => decide (ch = ' ')) line ∧
    get_input line false =
      (maximal_runs (fun ch => decide (ch = ' ')) line).map classify_one := by
  refine ⟨split_elements_space line, ?_⟩
  simp only [get_input, Bool.false_eq_true, if_false]
  rw [classify_eq_map, split_elements_space]

/-- C10: at end-of-input, for every (possibly empty) remaining line `get_input` returns the
commands of that line followed by exactly one more command, `Operator("q")`; and closing
the input after the unterminated line `1 2` pushes `1` and `2` and exits with code 0. -/
theorem C10_eof_appends_quit (line : List Char) :
    get_input line true = get_input line false ++ [op ['q']] ∧
    main ['1', ' ', '2'] = some (Outcome.exited 0 (Calc.mk [2, 1] [])) :=
  ⟨get_input_eof line, by decide⟩

/-! ## More on `stoi` -/

theorem stoi_convert_of_ne_nil (negative : Bool) (ds : List Char) (h : ds ≠ []) :
    stoi_convert negative ds =
      if in_int_range (if negative then -(digits_value ds : Int) else (digits_value ds : Int))
      then Except.ok (if negative then -(digits_value ds : Int) else (digits_value ds : Int))
      else Except.error Fault.out_of_range := by
  unfold stoi_convert
  rw [if_neg h]

theorem stoi_convert_invalid_iff (negative : Bool) (ds : List Char) :
    stoi_convert negative ds = Except.error Fault.invalid_argument ↔ ds = [] := by
  constructor
  · intro h
    by_contra hne
    rw [stoi_convert_of_ne_nil negative ds hne] at h
    generalize (if negative then -(digits_value ds : Int) else (digits_value ds : Int)) = w at h
    by_cases hr : in_int_range w
    · rw [if_pos hr] at h; cases h
    · rw [if_neg hr] at h; cases h
  · intro h
    rw [h]; rfl

theorem stoi_convert_ok_in_range (negative : Bool) (ds : List Char) (v : Int)
    (h : stoi_convert negative ds = Except.ok v) : in_int_range v := by
  by_cases hne : ds = []
  · rw [(stoi_convert_invalid_iff negative ds).mpr hne] at h; cases h
  · rw [stoi_convert_of_ne_nil negative ds hne] at h
    generalize (if negative then -(digits_value ds : Int) else (digits_value ds : Int)) = w at h
    by_cases hr : in_int_range w
    · rw [if_pos hr] at h; cases h; exact hr
    · rw [if_neg hr] at h; cases h

theorem stoi_ok_in_range (s : List Char) (v : Int) (h : stoi s = Except.ok v) :
    in_int_range v :=
  stoi_convert_ok_in_range _ _ v h

theorem stoi_error_cases (s : List Char) (f : Fault) (h : stoi s = Except.error f) :
    f = Fault.invalid_argument ∨ f = Fault.out_of_range := by
  unfold stoi at h
  simp only at h
  generalize (stoi_sign (List.dropWhile isspace s)).1 = negative at h
  generalize List.takeWhile isdigit (stoi_sign (List.dropWhile isspace s)).2 = ds at h
  by_cases hne : ds = []
  · rw [(stoi_convert_invalid_iff negative ds).mpr hne] at h; cases h; left; rfl
  · rw [stoi_convert_of_ne_nil negative ds hne] at h
    generalize (if negative then -(digits_value ds : Int) else (digits_value ds : Int)) = w at h
    by_cases hr : in_int_range w
    · rw [if_pos hr] at h; cases h
    · rw [if_neg hr] at h; cases h; right; rfl

theorem all_isdigit_mem (ds : List Char) (h : ds.all isdigit = true) :
    ∀ ch ∈ ds, isdigit ch = true := by
  simpa [List.all_eq_true] using h

theorem stoi_of_integer_literal (s : List Char) (h : is_integer_literal s = true) :
    stoi s = if in_int_range (literal_value s) then Except.ok (literal_value s)
      else Except.error Fault.out_of_range := by
  cases s with
  | nil => cases h
  | cons ch r =>
    by_cases hm : ch = '-'
    · subst hm
      have h1 : (!r.isEmpty && r.all isdigit) = true := h
      simp only [Bool.and_eq_true, Bool.not_eq_true', List.isEmpty_eq_false] at h1
      obtain ⟨hne, hall⟩ := h1
      have htw := takeWhile_isdigit_all r (all_isdigit_mem r hall)
      have hdrop : ('-' :: r).dropWhile isspace = '-' :: r := by
        rw [List.dropWhile_cons]; rfl
      unfold stoi
      rw [hdrop]
      show stoi_convert true (r.takeWhile isdigit) = _
      rw [htw, stoi_convert_of_ne_nil true r hne]
      rfl
    · by_cases hp : ch = '+'
      · subst hp
        have h1 : (!r.isEmpty && r.all isdigit) = true := h
        simp only [Bool.and_eq_true, Bool.not_eq_true', List.isEmpty_eq_false] at h1
        obtain ⟨hne, hall⟩ := h1
        have htw := takeWhile_isdigit_all r (all_isdigit_mem r hall)
        have hdrop : ('+' :: r).dropWhile isspace = '+' :: r := by
          rw [List.dropWhile_cons]; rfl
        unfold stoi
        rw [hdrop]
        show stoi_convert false (r.takeWhile isdigit) = _
        rw [htw, stoi_convert_of_ne_nil false r hne]
        rfl
      · have h1 : (ch :: r).all isdigit = true := by
          have h2 := h
          unfold is_integer_literal at h2
          simpa [hm, hp] using h2
        have hall := all_isdigit_mem (ch :: r) h1
        have hd := isdigit_not_special ch (hall ch (List.mem_cons_self ch r))
        have htw := takeWhile_isdigit_all (ch :: r) hall
        have hdrop : (ch :: r).dropWhile isspace = ch :: r := by
          rw [List.dropWhile_cons, hd.1]; rfl
        have hsign : stoi_sign (ch :: r) = (false, ch :: r) := by
          show (if ch = '-' then (true, r) else if ch = '+' then (false, r)
            else (false, ch :: r)) = (false, ch :: r)
          rw [if_neg hm, if_neg hp]
        have hval : literal_value (ch :: r) = (digits_value (ch :: r) : Int) := by
          show (if ch = '-' then -(digits_value r : Int)
            else if ch = '+' then (digits_value r : Int)
            else (digits_value (ch :: r) : Int)) = _
          rw [if_neg hm, if_neg hp]
        unfold stoi
        rw [hdrop, hsign]
        show stoi_convert false ((ch :: r).takeWhile isdigit) = _
        rw [htw, stoi_convert_of_ne_nil false (ch :: r) (List.cons_ne_nil ch r), hval]
        rfl


theorem execute_command_val (c : Calc) (literal : List Char) :
    execute_command c (val literal) =
      match stoi literal with
      | Except.ok v => Outcome.running (Calc.mk (v :: c.stack) c.out)
      | Except.error f => Outcome.crashed f c := rfl


theorem decimal_is_literal (v : Int) :
    is_integer_literal (decimal v) = true ∧ literal_value (decimal v) = v := by
  cases v with
  | ofNat n =>
    obtain ⟨hall, hne, hval⟩ := toDigits_spec n
    show is_integer_literal (Nat.toDigits 10 n) = true ∧
      literal_value (Nat.toDigits 10 n) = Int.ofNat n
    cases hds : Nat.toDigits 10 n with
    | nil => exact absurd hds hne
    | cons d ds =>
      rw [hds] at hall hval
      have hd := isdigit_not_special d (hall d (List.mem_cons_self d ds))
      have hs : ¬ (d = '-' ∨ d = '+') := fun h => h.elim hd.2.1 hd.2.2
      constructor
      · show (if d = '-' ∨ d = '+' then _ else (d :: ds).all isdigit) = true
        rw [if_neg hs]
        exact List.all_eq_true.mpr hall
      · show (if d = '-' then _ else if d = '+' then _
          else (digits_value (d :: ds) : Int)) = _
        rw [if_neg hd.2.1, if_neg hd.2.2, hval]
        rfl
  | negSucc n =>
    obtain ⟨hall, hne, hval⟩ := toDigits_spec (n + 1)
    show is_integer_literal ('-' :: Nat.toDigits 10 (n + 1)) = true ∧
      literal_value ('-' :: Nat.toDigits 10 (n + 1)) = Int.negSucc n
    cases hds : Nat.toDigits 10 (n + 1) with
    | nil => exact absurd hds hne
    | cons d ds =>
      rw [hds] at hall hval
      constructor
      · show (!(d :: ds).isEmpty && (d :: ds).all isdigit) = true
        rw [List.all_eq_true.mpr hall]
        rfl
      · show -(digits_value (d :: ds) : Int) = Int.negSucc n
        rw [hval, Int.negSucc_eq]
        push_cast
        rfl

/-! ## The claims on failures -/

/-- C12, as stated, fails: `p` on the empty stack raises no detected condition; the fault
is the unchecked call of `top` on an empty `std::stack`. -/
theorem C12_peek_empty_counterexample :
    ¬ ∃ f, execute_operator (Calc.mk [] []) (op ['p']) = Except.error f ∧
      f.detected = true := by
  rintro ⟨f, hf, hd⟩
  have h0 : execute_operator (Calc.mk [] []) (op ['p']) = Except.error Fault.empty_stack := rfl
  rw [h0] at hf
  cases hf
  exact absurd hd (by decide)

/-- C12, amended: executing `Operator("p")` on the empty stack is unguarded: `top` is
called on the empty `std::stack`, an undetected fault (undefined behaviour), in
`execute_operator` and in the dispatch of `main`, whatever was written before. -/
theorem C12_peek_empty_unchecked (out : List Char) :
    execute_operator (Calc.mk [] out) (op ['p']) = Except.error Fault.empty_stack ∧
    execute_command (Calc.mk [] out) (op ['p']) =
      Outcome.crashed Fault.empty_stack (Calc.mk [] out) ∧
    Fault.empty_stack.detected = false :=
  ⟨rfl, rfl, rfl⟩

/-- C13, as stated, fails: `+` on a one-element stack and `*` on the empty stack raise no
detected condition; the fault is the unchecked call of `top` on an empty `std::stack`. -/
theorem C13_underflow_counterexample :
    (¬ ∃ f, execute_operator (Calc.mk [5] []) (op ['+']) = Except.error f ∧
      f.detected = true) ∧
    (¬ ∃ f, execute_operator (Calc.mk [] []) (op ['*']) = Except.error f ∧
      f.detected = true) := by
  constructor
  · rintro ⟨f, hf, hd⟩
    have h0 : execute_operator (Calc.mk [5] []) (op ['+']) =
        Except.error Fault.empty_stack := rfl
    rw [h0] at hf
    cases hf
    exact absurd hd (by decide)
  · rintro ⟨f, hf, hd⟩
    have h0 : execute_operator (Calc.mk [] []) (op ['*']) =
        Except.error Fault.empty_stack := rfl
    rw [h0] at hf
    cases hf
    exact absurd hd (by decide)

/-- C13, amended: for every stack with fewer than 2 elements, `Operator("+")` and
`Operator("*")` are unguarded: `top` is called on an empty `std::stack`, an undetected
fault (undefined behaviour), in `execute_operator` and in the dispatch of `main`. -/
theorem C13_underflow_unchecked (c : Calc) (h : c.stack.length < 2) :
    execute_operator c (op ['+']) = Except.error Fault.empty_stack ∧
    execute_operator c (op ['*']) = Except.error Fault.empty_stack ∧
    execute_command c (op ['+']) = Outcome.crashed Fault.empty_stack c ∧
    execute_command c (op ['*']) = Outcome.crashed Fault.empty_stack c ∧
    Fault.empty_stack.detected = false := by
  obtain ⟨stack, out⟩ := c
  cases stack with
  | nil => exact ⟨rfl, rfl, rfl, rfl, rfl⟩
  | cons a rest =>
    cases rest with
    | nil => exact ⟨rfl, rfl, rfl, rfl, rfl⟩
    | cons b rest1 =>
      simp only [List.length_cons] at h
      omega

/-- Witness of C13 (amended): the one-element stack `[5]`. -/
theorem C13_underflow_unchecked_witness :
    execute_operator (Calc.mk [5] []) (op ['+']) = Except.error Fault.empty_stack ∧
    execute_operator (Calc.mk [5] []) (op ['*']) = Except.error Fault.empty_stack ∧
    execute_command (Calc.mk [5] []) (op ['+']) =
      Outcome.crashed Fault.empty_stack (Calc.mk [5] []) ∧
    execute_command (Calc.mk [5] []) (op ['*']) =
      Outcome.crashed Fault.empty_stack (Calc.mk [5] []) ∧
    Fault.empty_stack.detected = false :=
  C13_underflow_unchecked (Calc.mk [5] []) (by decide)


/-! ## Lines and fuel -/

theorem split_elements_append (line more : List Char) :
    split_elements (line ++ [' '] ++ more) =
      split_elements (line ++ [' ']) ++ split_elements more := by
  unfold split_elements
  rw [List.foldl_append, foldl_split_step_space, foldl_split_step_elements]

theorem classify_append (xs ys : List (List Char)) :
    classify (xs ++ ys) = classify xs ++ classify ys := by
  rw [classify_eq_map, classify_eq_map, classify_eq_map, List.map_append]

theorem get_input_join (line1 line2 : List Char) (eof : Bool) :
    get_input (line1 ++ ' ' :: line2) eof = get_input line1 false ++ get_input line2 eof := by
  have h1 : ∀ more : List Char, line1 ++ ' ' :: more = line1 ++ [' '] ++ more := by
    intro more; simp
  cases eof with
  | false =>
    simp only [get_input, Bool.false_eq_true, if_false]
    rw [← classify_append, ← split_elements_append]
    simp
  | true =>
    simp only [get_input, if_true, Bool.false_eq_true, if_false]
    rw [← classify_append, ← split_elements_append]
    simp

theorem getline_append (pre rest : List Char) (h : '\n' ∉ pre) :
    getline (pre ++ rest) =
      (pre ++ (getline rest).1, (getline rest).2.1, (getline rest).2.2) := by
  induction pre with
  | nil => simp
  | cons x xs ih =>
    have hx : x ≠ '\n' := fun e => h (e ▸ List.mem_cons_self x xs)
    have hxs : '\n' ∉ xs := fun e => h (List.mem_cons_of_mem x e)
    simp [getline, hx, ih hxs]

theorem main_loop_succ (fuel : Nat) :
    ∀ (input : List Char) (c : Calc) (o : Outcome), main_loop fuel input c = some o →
      main_loop (fuel + 1) input c = some o := by
  induction fuel with
  | zero => intro input c o h; cases h
  | succ fuel ih =>
    intro input c o h
    rw [main_loop] at h ⊢
    cases hr : run_commands (get_input (getline input).1 (getline input).2.1) c with
    | running c1 =>
      rw [hr] at h
      exact ih _ c1 o h
    | exited code c1 => rw [hr] at h; exact h
    | crashed f c1 => rw [hr] at h; exact h

theorem main_loop_le (fuel more : Nat) (input : List Char) (c : Calc) (o : Outcome)
    (h : main_loop fuel input c = some o) : main_loop (fuel + more) input c = some o := by
  induction more with
  | zero => exact h
  | succ more ih => exact main_loop_succ _ input c o ih

theorem main_loop_fuel (f1 f2 : Nat) (input : List Char) (c : Calc)
    (h1 : input.length < f1) (h2 : input.length < f2) :
    main_loop f1 input c = main_loop f2 input c := by
  obtain ⟨o1, ho1, -⟩ := main_loop_total f1 input c h1
  obtain ⟨o2, ho2, -⟩ := main_loop_total f2 input c h2
  rcases Nat.le_total f1 f2 with hle | hle
  · obtain ⟨k, rfl⟩ := Nat.exists_eq_add_of_le hle
    rw [ho1, main_loop_le f1 k input c o1 ho1]
  · obtain ⟨k, rfl⟩ := Nat.exists_eq_add_of_le hle
    rw [ho2, main_loop_le f2 k input c o2 ho2]

theorem run_commands_running_of (cmds : List Command) (st : Calc) (hq : op ['q'] ∉ cmds)
    (hok : ∀ f s, run_commands cmds st ≠ Outcome.crashed f s) :
    ∃ st1, run_commands cmds st = Outcome.running st1 := by
  cases hr : run_commands cmds st with
  | running st1 => exact ⟨st1, rfl⟩
  | exited code st1 => exact absurd hr (run_commands_not_exited cmds hq st st1 code)
  | crashed f st1 => exact absurd hr (hok f st1)

theorem main_loop_join (f1 f2 : Nat) (line1 rest : List Char) (st st1 : Calc)
    (hline : '\n' ∉ line1) (hrun : run_commands (get_input line1 false) st = Outcome.running st1)
    (h1 : (line1 ++ '\n' :: rest).length < f1) (h2 : (line1 ++ ' ' :: rest).length < f2) :
    main_loop f1 (line1 ++ '\n' :: rest) st = main_loop f2 (line1 ++ ' ' :: rest) st := by
  have hlen1 : rest.length + 1 < f1 := by
    simp only [List.length_append, List.length_cons] at h1; omega
  have hlen2 : rest.length + 1 < f2 := by
    simp only [List.length_append, List.length_cons] at h2; omega
  obtain ⟨k, rfl⟩ : ∃ k, f1 = k + 1 := ⟨f1 - 1, by omega⟩
  obtain ⟨m, rfl⟩ : ∃ m, f2 = m + 1 := ⟨f2 - 1, by omega⟩
  have hA : main_loop (k + 1) (line1 ++ '\n' :: rest) st = main_loop k rest st1 := by
    rw [main_loop]
    simp only [getline_newline line1 rest hline, hrun]
  have hspace : '\n' ∉ line1 ++ [' '] := by
    intro hmem
    rcases List.mem_append.mp hmem with h | h
    · exact hline h
    · simp at h
  have hB : main_loop (m + 1) (line1 ++ ' ' :: rest) st = main_loop (m + 1) rest st1 := by
    have hsplit : line1 ++ ' ' :: rest = (line1 ++ [' ']) ++ rest := by simp
    rw [main_loop, main_loop]
    rw [hsplit, getline_append (line1 ++ [' ']) rest hspace]
    have hjoin : (line1 ++ [' ']) ++ (getline rest).1 = line1 ++ ' ' :: (getline rest).1 := by
      simp
    rw [hjoin, get_input_join, run_commands_append, hrun]
  rw [hA, hB]
  exact main_loop_fuel k (m + 1) rest st1 (by omega) (by omega)


theorem execute_command_stops (c s : Calc) (each : Command) :
    (∀ code, execute_command c each = Outcome.exited code s → code = 0 ∧ s = c) ∧
    (∀ f, execute_command c each = Outcome.crashed f s → s = c) := by
  obtain ⟨kind, value⟩ := each
  cases kind with
  | Operator =>
    by_cases hq : value = ['q']
    · simp only [execute_command, hq, if_true]
      constructor
      · intro code h; cases h; exact ⟨rfl, rfl⟩
      · intro f h; cases h
    · simp only [execute_command, hq, if_false]
      cases he : execute_operator c (Command.mk Command_kind.Operator value) with
      | ok c2 => exact ⟨fun code h => (by cases h), fun f h => (by cases h)⟩
      | error f1 => exact ⟨fun code h => (by cases h), fun f h => (by cases h; rfl)⟩
  | Value =>
    simp only [execute_command]
    cases he : stoi value with
    | ok v => exact ⟨fun code h => (by cases h), fun f h => (by cases h)⟩
    | error f1 => exact ⟨fun code h => (by cases h), fun f h => (by cases h; rfl)⟩

theorem run_commands_exit_code (cmds : List Command) (st s : Calc) (code : Nat)
    (h : run_commands cmds st = Outcome.exited code s) : code = 0 := by
  induction cmds generalizing st with
  | nil => cases h
  | cons x xs ih =>
    simp only [run_commands] at h
    cases hx : execute_command st x with
    | running c1 => rw [hx] at h; exact ih c1 h
    | exited code1 c1 =>
      have h0 := ((execute_command_stops st c1 x).1 code1 hx).1
      rw [hx] at h
      cases h
      exact h0
    | crashed f c1 => rw [hx] at h; cases h

theorem blank_line_elements (n : Nat) : split_elements (List.replicate n ' ' ++ [' ']) = [] := by
  have h : ∀ k, (List.replicate k ' ').foldl split_step ([], []) = ([], []) := by
    intro k
    induction k with
    | zero => rfl
    | succ k ih =>
      rw [List.replicate_succ, List.foldl_cons]
      have : split_step ([], []) ' ' = ([], []) := by decide
      rw [this, ih]
  unfold split_elements
  rw [List.foldl_append, h]
  decide

/-! ## The claims on lines and termination -/

/-- C14: the stack persists across input lines. When `c1` holds no `q` and runs without
failure from `st`, running `c1` and then `c2` from the state `c1` left gives the outcome of
running `c1 ++ c2` from `st`; and `main`, with enough fuel, gives the same outcome (stack,
output and termination status) on a line followed by the rest of the input as on the input
where that line and the next are one line. The commands of the joined line are the
commands of the two lines, in order. -/
theorem C14_stack_persists (c1 c2 : List Command) (st : Calc)
    (hq : op ['q'] ∉ c1) (hok : ∀ f s, run_commands c1 st ≠ Outcome.crashed f s) :
    (∃ st1, run_commands c1 st = Outcome.running st1 ∧
      run_commands (c1 ++ c2) st = run_commands c2 st1) ∧
    (∀ (line1 rest : List Char) (f1 f2 : Nat), '\n' ∉ line1 → get_input line1 false = c1 →
      (line1 ++ '\n' :: rest).length < f1 → (line1 ++ ' ' :: rest).length < f2 →
      main_loop f1 (line1 ++ '\n' :: rest) st = main_loop f2 (line1 ++ ' ' :: rest) st) ∧
    (∀ (line1 line2 : List Char) (eof : Bool),
      get_input (line1 ++ ' ' :: line2) eof =
        get_input line1 false ++ get_input line2 eof) := by
  obtain ⟨st1, hst1⟩ := run_commands_running_of c1 st hq hok
  refine ⟨⟨st1, hst1, ?_⟩, ?_, get_input_join⟩
  · rw [run_commands_append, hst1]
  · intro line1 rest f1 f2 hline hc1 h1 h2
    rw [← hc1] at hst1
    exact main_loop_join f1 f2 line1 rest st st1 hline hst1 h1 h2

/-- Witness of C14: the line `1 2` followed by the line `+ p`, against the line
`1 2 + p`. -/
theorem C14_stack_persists_witness :
    main_loop 9 (['1', ' ', '2'] ++ '\n' :: ['+', ' ', 'p']) (Calc.mk [] []) =
      main_loop 9 (['1', ' ', '2'] ++ ' ' :: ['+', ' ', 'p']) (Calc.mk [] []) ∧
    main_loop 9 (['1', ' ', '2'] ++ ' ' :: ['+', ' ', 'p']) (Calc.mk [] []) =
      some (Outcome.exited 0 (Calc.mk [3] ['3', '\n'])) :=
  ⟨(C14_stack_persists [val ['1'], val ['2']] [op ['+'], op ['p']] (Calc.mk [] [])
      (by decide) (fun f s h => Outcome.noConfusion
        (h.symm.trans (show run_commands [val ['1'], val ['2']] (Calc.mk [] []) =
          Outcome.running (Calc.mk [2, 1] []) from by decide)))).2.1 ['1', ' ', '2'] ['+', ' ', 'p'] 9 9
      (by decide) (by decide) (by decide) (by decide),
    by decide⟩

/-- C15: the outer loop leaves Running exactly when an `Operator("q")` is processed. For
every command sequence that runs without failure, it ends with `main` returning 0 if and
only if the sequence holds an `Operator("q")`, and the loop goes on if and only if it
holds none; once `main` has returned, no further command changes the stack or the output;
`main` reads the next line only when the loop goes on; an empty or all-blank line holds no
command and leaves the state as it was. -/
theorem C15_terminated_iff_quit (cmds post : List Command) (st : Calc)
    (hok : ∀ f s, run_commands cmds st ≠ Outcome.crashed f s) :
    ((∃ s, run_commands cmds st = Outcome.exited 0 s) ↔ op ['q'] ∈ cmds) ∧
    ((∃ s, run_commands cmds st = Outcome.running s) ↔ op ['q'] ∉ cmds) ∧
    (∀ code s, run_commands cmds st = Outcome.exited code s →
      code = 0 ∧ run_commands (cmds ++ post) st = Outcome.exited code s) ∧
    (∀ (fuel : Nat) (line rest : List Char), '\n' ∉ line → get_input line false = cmds →
      main_loop (fuel + 1) (line ++ '\n' :: rest) st =
        match run_commands cmds st with
        | Outcome.running s => main_loop fuel rest s
        | o => some o) ∧
    (∀ n, get_input (List.replicate n ' ') false = [] ∧
      run_commands (get_input (List.replicate n ' ') false) st = Outcome.running st) := by
  have hiff : (∃ s, run_commands cmds st = Outcome.running s) ↔ op ['q'] ∉ cmds := by
    constructor
    · rintro ⟨s, hs⟩ hmem
      exact run_commands_not_running cmds hmem st s hs
    · intro hq
      exact run_commands_running_of cmds st hq hok
  refine ⟨?_, hiff, ?_, ?_, ?_⟩
  · constructor
    · rintro ⟨s, hs⟩
      by_contra hq
      obtain ⟨s1, hs1⟩ := hiff.mpr hq
      rw [hs1] at hs
      cases hs
    · intro hmem
      cases hr : run_commands cmds st with
      | running s => exact absurd hr (run_commands_not_running cmds hmem st s)
      | exited code s =>
        have := run_commands_exit_code cmds st s code hr
        subst this
        exact ⟨s, rfl⟩
      | crashed f s => exact absurd hr (hok f s)
  · intro code s hs
    refine ⟨run_commands_exit_code cmds st s code hs, ?_⟩
    rw [run_commands_append, hs]
  · intro fuel line rest hline hc
    rw [main_loop]
    simp only [getline_newline line rest hline, hc]
  · intro n
    have h0 : get_input (List.replicate n ' ') false = [] := by
      simp only [get_input, Bool.false_eq_true, if_false]
      rw [blank_line_elements]
      rfl
    exact ⟨h0, by rw [h0]; rfl⟩

/-- Witness of C15: the commands `1 q` end the loop with exit code 0, and a `p` after them
changes nothing. -/
theorem C15_terminated_iff_quit_witness :
    0 = 0 ∧ run_commands ([val ['1'], op ['q']] ++ [op ['p']]) (Calc.mk [] []) =
      Outcome.exited 0 (Calc.mk [1] []) :=
  (C15_terminated_iff_quit [val ['1'], op ['q']] [op ['p']] (Calc.mk [] [])
    (fun f s h => Outcome.noConfusion
      (h.symm.trans (show run_commands [val ['1'], op ['q']] (Calc.mk [] []) =
        Outcome.exited 0 (Calc.mk [1] []) from by decide)))).2.2.1 0 (Calc.mk [1] [])
    (by decide)

/-! ## Output -/

theorem execute_operator_out (c c1 : Calc) (value : List Char) (hp : value ≠ ['p'])
    (h : execute_operator c (Command.mk Command_kind.Operator value) = Except.ok c1) :
    c1.out = c.out := by
  obtain ⟨stack, out⟩ := c
  unfold execute_operator at h
  simp only [hp, if_false] at h
  by_cases h1 : value = ['+']
  · simp only [h1, if_true] at h
    match stack, h with
    | [], h => cases h
    | [_], h => cases h
    | a :: b :: rest, h => cases h; rfl
  · simp only [h1, if_false] at h
    by_cases h2 : value = ['*']
    · simp only [h2, if_true] at h
      match stack, h with
      | [], h => cases h
      | [_], h => cases h
      | a :: b :: rest, h => cases h; rfl
    · simp only [h2, if_false] at h
      cases h; rfl

theorem execute_command_running_out (c c1 : Calc) (x : Command)
    (h : execute_command c x = Outcome.running c1) :
    (x = op ['p'] ∧ ∃ top rest, c.stack = top :: rest ∧
      c1 = Calc.mk c.stack (c.out ++ decimal top ++ ['\n'])) ∨
    (x ≠ op ['p'] ∧ c1.out = c.out) := by
  obtain ⟨kind, value⟩ := x
  cases kind with
  | Operator =>
    by_cases hq : value = ['q']
    · simp only [execute_command, hq, if_true] at h
      cases h
    · simp only [execute_command, hq, if_false] at h
      by_cases hp : value = ['p']
      · left
        subst hp
        refine ⟨rfl, ?_⟩
        obtain ⟨stack, out⟩ := c
        cases stack with
        | nil => cases h
        | cons top rest =>
          refine ⟨top, rest, rfl, ?_⟩
          have h0 : execute_operator (Calc.mk (top :: rest) out)
              (Command.mk Command_kind.Operator ['p']) =
              Except.ok (Calc.mk (top :: rest) (out ++ decimal top ++ ['\n'])) := rfl
          rw [h0] at h
          cases h
          rfl
      · right
        refine ⟨?_, ?_⟩
        · intro hx
          cases hx
          exact hp rfl
        · cases he : execute_operator c (Command.mk Command_kind.Operator value) with
          | ok c2 =>
            have h0 := execute_operator_out c c2 value hp he
            rw [he] at h
            cases h
            exact h0
          | error f => rw [he] at h; cases h
  | Value =>
    right
    refine ⟨(by intro hx; cases hx), ?_⟩
    simp only [execute_command] at h
    cases he : stoi value with
    | ok v => rw [he] at h; cases h; rfl
    | error f => rw [he] at h; cases h

theorem run_commands_output (cmds : List Command) :
    ∀ st : Calc, (∀ f s, run_commands cmds st ≠ Outcome.crashed f s) →
      ∃ vs : List Int,
        vs.length = (cmds.takeWhile (fun x => decide (x ≠ op ['q']))).count (op ['p']) ∧
        (run_commands cmds st).calc.out =
          st.out ++ (vs.map (fun v => decimal v ++ ['\n'])).flatten := by
  induction cmds with
  | nil => intro st _; exact ⟨[], rfl, by simp [run_commands, Outcome.calc]⟩
  | cons x xs ih =>
    intro st hok
    cases hx : execute_command st x with
    | running c1 =>
      have hrun : run_commands (x :: xs) st = run_commands xs c1 := by
        simp only [run_commands, hx]
      have hxq : x ≠ op ['q'] := by
        intro e
        rw [e, execute_command_quit] at hx
        cases hx
      rw [hrun] at hok ⊢
      obtain ⟨vs, hlen, hout⟩ := ih c1 hok
      have htw : (x :: xs).takeWhile (fun x => decide (x ≠ op ['q'])) =
          x :: xs.takeWhile (fun x => decide (x ≠ op ['q'])) := by
        rw [List.takeWhile_cons]
        simp [hxq]
      rw [htw]
      rcases execute_command_running_out st c1 x hx with ⟨hxp, top, rest, -, hc1⟩ | ⟨hxp, hsame⟩
      · refine ⟨top :: vs, ?_, ?_⟩
        · rw [hxp, List.count_cons_self, List.length_cons, hlen]
        · rw [hout, hc1]
          simp [List.append_assoc]
      · refine ⟨vs, ?_, ?_⟩
        · rw [List.count_cons_of_ne (Ne.symm hxp), hlen]
        · rw [hout, hsame]
    | exited code c1 =>
      have hxq := execute_command_exited st c1 x code hx
      have hst := ((execute_command_stops st c1 x).1 code hx).2
      have hrun : run_commands (x :: xs) st = Outcome.exited code c1 := by
        simp only [run_commands, hx]
      refine ⟨[], ?_, ?_⟩
      · rw [List.takeWhile_cons]
        simp [hxq]
      · rw [hrun, hst]
        simp [Outcome.calc]
    | crashed f c1 =>
      have hrun : run_commands (x :: xs) st = Outcome.crashed f c1 := by
        simp only [run_commands, hx]
      exact absurd hrun (hok f c1)

/-- C16: only `p` produces output. For every command sequence that runs without failure,
from any state, the output grows by exactly one newline-terminated decimal line per
`Operator("p")` standing before the first `q`, in order, and by nothing else; a command
other than `Operator("p")` that is executed leaves the output as it was, and so does
`q`. -/
theorem C16_only_p_prints (cmds : List Command) (st : Calc)
    (hok : ∀ f s, run_commands cmds st ≠ Outcome.crashed f s) :
    (∃ vs : List Int,
      vs.length = (cmds.takeWhile (fun x => decide (x ≠ op ['q']))).count (op ['p']) ∧
      (run_commands cmds st).calc.out =
        st.out ++ (vs.map (fun v => decimal v ++ ['\n'])).flatten ∧
      ∀ v ∈ vs, '\n' ∉ decimal v) ∧
    (∀ (c c1 : Calc) (x : Command), x ≠ op ['p'] →
      execute_command c x = Outcome.running c1 → c1.out = c.out) ∧
    (∀ (c : Calc) (top : Int) (rest : List Int), c.stack = top :: rest →
      execute_command c (op ['p']) =
        Outcome.running (Calc.mk c.stack (c.out ++ decimal top ++ ['\n']))) ∧
    (∀ c : Calc, execute_command c (op ['q']) = Outcome.exited 0 c) := by
  obtain ⟨vs, hlen, hout⟩ := run_commands_output cmds st hok
  refine ⟨⟨vs, hlen, hout, fun v _ => decimal_no_newline v⟩, ?_, ?_, execute_command_quit⟩
  · intro c c1 x hx h
    rcases execute_command_running_out c c1 x h with ⟨hxp, -⟩ | ⟨-, hsame⟩
    · exact absurd hxp hx
    · exact hsame
  · intro c top rest hstack
    obtain ⟨stack, out⟩ := c
    simp only at hstack
    subst hstack
    rfl

/-- Witness of C16: the commands `2 p 3 + p q p` print the two lines `2` and `5`. -/
theorem C16_only_p_prints_witness :
    ∃ vs : List Int,
      vs.length = ([val ['2'], op ['p'], val ['3'], op ['+'], op ['p'], op ['q'],
        op ['p']].takeWhile (fun x => decide (x ≠ op ['q']))).count (op ['p']) ∧
      (run_commands [val ['2'], op ['p'], val ['3'], op ['+'], op ['p'], op ['q'], op ['p']]
        (Calc.mk [] [])).calc.out =
        (Calc.mk [] []).out ++ (vs.map (fun v => decimal v ++ ['\n'])).flatten ∧
      ∀ v ∈ vs, '\n' ∉ decimal v :=
  (C16_only_p_prints [val ['2'], op ['p'], val ['3'], op ['+'], op ['p'], op ['q'], op ['p']]
    (Calc.mk [] [])
    (fun f s h => Outcome.noConfusion
      (h.symm.trans (show run_commands [val ['2'], op ['p'], val ['3'], op ['+'], op ['p'],
        op ['q'], op ['p']] (Calc.mk [] []) =
          Outcome.exited 0 (Calc.mk [5] ['2', '\n', '5', '\n']) from by decide)))).1


theorem execute_command_plus (a b : Int) (rest : List Int) (out : List Char) :
    execute_command (Calc.mk (a :: b :: rest) out) (op ['+']) =
      Outcome.running (Calc.mk (wrap_int (a + b) :: rest) out) := rfl

theorem execute_command_peek (top : Int) (rest : List Int) (out : List Char) :
    execute_command (Calc.mk (top :: rest) out) (op ['p']) =
      Outcome.running (Calc.mk (top :: rest) (out ++ decimal top ++ ['\n'])) := rfl

theorem execute_command_decimal (v : Int) (c : Calc) (h : in_int_range v) :
    execute_command c (val (decimal v)) = Outcome.running (Calc.mk (v :: c.stack) c.out) := by
  rw [execute_command_val, stoi_decimal v h]

theorem run_push_push_plus_peek (x y : Int) (st : Calc) (hx : in_int_range x)
    (hy : in_int_range y) :
    run_commands [val (decimal x), val (decimal y), op ['+'], op ['p']] st =
      Outcome.running (Calc.mk (wrap_int (y + x) :: st.stack)
        (st.out ++ decimal (wrap_int (y + x)) ++ ['\n'])) := by
  simp only [run_commands, execute_command_decimal x st hx,
    execute_command_decimal y (Calc.mk (x :: st.stack) st.out) hy, execute_command_plus,
    execute_command_peek]

/-- C17: addition does not depend on the order in which its operands were pushed. For all
`x` and `y` in the range of `int` and every starting state, the commands `x`, `y`, `+`, `p`
and the commands `y`, `x`, `+`, `p` give the same outcome: the same line printed, the 32-bit
sum of `x` and `y`, and the same stack, that sum above the starting stack; `3 4 + p` and
`4 3 + p` both print `7`. -/
theorem C17_addition_order (x y : Int) (st : Calc) (hx : in_int_range x)
    (hy : in_int_range y) :
    run_commands [val (decimal x), val (decimal y), op ['+'], op ['p']] st =
      run_commands [val (decimal y), val (decimal x), op ['+'], op ['p']] st ∧
    run_commands [val (decimal x), val (decimal y), op ['+'], op ['p']] st =
      Outcome.running (Calc.mk (wrap_int (x + y) :: st.stack)
        (st.out ++ decimal (wrap_int (x + y)) ++ ['\n'])) ∧
    run_commands [val ['3'], val ['4'], op ['+'], op ['p']] (Calc.mk [] []) =
      Outcome.running (Calc.mk [7] ['7', '\n']) ∧
    run_commands [val ['4'], val ['3'], op ['+'], op ['p']] (Calc.mk [] []) =
      Outcome.running (Calc.mk [7] ['7', '\n']) := by
  refine ⟨?_, ?_, by decide, by decide⟩
  · rw [run_push_push_plus_peek x y st hx hy, run_push_push_plus_peek y x st hy hx,
      Int.add_comm]
  · rw [run_push_push_plus_peek x y st hx hy, Int.add_comm]

/-- Witness of C17: the operands `-5` and `12` on the stack `[9]`. -/
theorem C17_addition_order_witness :
    run_commands [val (decimal (-5)), val (decimal 12), op ['+'], op ['p']] (Calc.mk [9] []) =
      run_commands [val (decimal 12), val (decimal (-5)), op ['+'], op ['p']]
        (Calc.mk [9] []) :=
  (C17_addition_order (-5) 12 (Calc.mk [9] []) (by decide) (by decide)).1

/-- C18, as stated, fails: in `1 p +` the first failing command is the `+`, a stack
underflow, and it is not a detected failure: the fault is the unchecked call of `top` on
an empty `std::stack`. -/
theorem C18_underflow_counterexample :
    ¬ ∃ f s, run_commands [val ['1'], op ['p'], op ['+']] (Calc.mk [] []) =
      Outcome.crashed f s ∧ f.detected = true := by
  rintro ⟨f, s, hrun, hd⟩
  have h0 : run_commands [val ['1'], op ['p'], op ['+']] (Calc.mk [] []) =
      Outcome.crashed Fault.empty_stack (Calc.mk [1] ['1', '\n']) := by decide
  rw [h0] at hrun
  cases hrun
  exact absurd hd (by decide)

/-- C18, amended: a bad `Value` literal is detected at evaluation time, with no rollback.
When the commands `pre` run to their end and the next command fails with a detected fault,
the run ends there: the state is the one `pre` left, output included, whatever commands
follow; a detected fault comes from a `Value` command only, and every failure of a `Value`
command is detected and changes nothing; `1 p x 2 p` prints `1` and then fails. -/
theorem C18_failure_keeps_output (pre post : List Command) (bad : Command)
    (st st1 s : Calc) (f : Fault)
    (hpre : run_commands pre st = Outcome.running st1)
    (hbad : execute_command st1 bad = Outcome.crashed f s) (hdet : f.detected = true) :
    run_commands (pre ++ bad :: post) st = Outcome.crashed f st1 ∧
    s = st1 ∧
    bad.kind = Command_kind.Value ∧
    (∀ (c c1 : Calc) (literal : List Char) (f1 : Fault),
      execute_command c (val literal) = Outcome.crashed f1 c1 →
        f1.detected = true ∧ c1 = c) ∧
    main ['1', ' ', 'p', ' ', 'x', ' ', '2', ' ', 'p', '\n'] =
      some (Outcome.crashed Fault.invalid_argument (Calc.mk [1] ['1', '\n'])) := by
  have hs := (execute_command_stops st1 s bad).2 f hbad
  refine ⟨?_, hs, ?_, ?_, by decide⟩
  · rw [run_commands_append, hpre]
    simp only [run_commands, hbad, hs]
  · obtain ⟨kind, value⟩ := bad
    cases kind with
    | Value => rfl
    | Operator =>
      exfalso
      by_cases hq : value = ['q']
      · simp only [execute_command, hq, if_true] at hbad
        cases hbad
      · simp only [execute_command, hq, if_false] at hbad
        cases he : execute_operator st1 (Command.mk Command_kind.Operator value) with
        | ok c2 => rw [he] at hbad; cases hbad
        | error f2 =>
          rw [he] at hbad
          cases hbad
          have hf : f = Fault.empty_stack := by
            unfold execute_operator at he
            simp only at he
            split at he
            · split at he <;> first | cases he; rfl | cases he
            · split at he
              · split at he <;> first | cases he; rfl | cases he
              · split at he
                · split at he <;> first | cases he; rfl | cases he
                · cases he
          rw [hf] at hdet
          exact absurd hdet (by decide)
  · intro c c1 literal f1 h
    refine ⟨?_, (execute_command_stops c c1 (val literal)).2 f1 h⟩
    rw [execute_command_val] at h
    cases he : stoi literal with
    | ok v => rw [he] at h; cases h
    | error f2 =>
      rw [he] at h
      cases h
      rcases stoi_error_cases literal f1 he with h1 | h1 <;> (rw [h1]; rfl)

/-- Witness of C18 (amended): after `1 p` the literal `x` fails and `2 p` is not run. -/
theorem C18_failure_keeps_output_witness :
    run_commands ([val ['1'], op ['p']] ++ val ['x'] :: [val ['2'], op ['p']])
      (Calc.mk [] []) =
      Outcome.crashed Fault.invalid_argument (Calc.mk [1] ['1', '\n']) :=
  (C18_failure_keeps_output [val ['1'], op ['p']] [val ['2'], op ['p']] (val ['x'])
    (Calc.mk [] []) (Calc.mk [1] ['1', '\n']) (Calc.mk [1] ['1', '\n'])
    Fault.invalid_argument (by decide) (by decide) (by decide)).1


/-! ## Tokens as runs of characters other than the space -/

theorem split_step_invariant (line : List Char) :
    ∀ (els : List (List Char)) (tok : List Char),
      (∀ t ∈ els, t ≠ [] ∧ ' ' ∉ t) → ' ' ∉ tok →
      (∀ t ∈ (line.foldl split_step (els, tok)).1, t ≠ [] ∧ ' ' ∉ t) ∧
      ' ' ∉ (line.foldl split_step (els, tok)).2 ∧
      (line.foldl split_step (els, tok)).1.flatten ++ (line.foldl split_step (els, tok)).2 =
        els.flatten ++ tok ++ line.filter (fun ch => decide (ch ≠ ' ')) := by
  induction line with
  | nil => intro els tok hels htok; exact ⟨hels, htok, by simp⟩
  | cons x xs ih =>
    intro els tok hels htok
    rw [List.foldl_cons]
    by_cases hx : x = ' '
    · by_cases ht : tok = []
      · have hs : split_step (els, tok) x = (els, tok) := by simp [split_step, hx, ht]
        rw [hs]
        obtain ⟨h1, h2, h3⟩ := ih els tok hels htok
        refine ⟨h1, h2, ?_⟩
        rw [h3]
        simp [hx]
      · have hs : split_step (els, tok) x = (els ++ [tok], []) := by
          simp [split_step, hx, ht]
        rw [hs]
        have hels1 : ∀ t ∈ els ++ [tok], t ≠ [] ∧ ' ' ∉ t := by
          intro t hmem
          rcases List.mem_append.mp hmem with h | h
          · exact hels t h
          · rw [List.mem_singleton.mp h]; exact ⟨ht, htok⟩
        obtain ⟨h1, h2, h3⟩ := ih (els ++ [tok]) [] hels1 (by simp)
        refine ⟨h1, h2, ?_⟩
        rw [h3]
        simp [hx]
    · have hs : split_step (els, tok) x = (els, tok ++ [x]) := by simp [split_step, hx]
      rw [hs]
      have htok1 : ' ' ∉ tok ++ [x] := by
        intro hmem
        rcases List.mem_append.mp hmem with h | h
        · exact htok h
        · exact hx (List.mem_singleton.mp h).symm
      obtain ⟨h1, h2, h3⟩ := ih els (tok ++ [x]) hels htok1
      refine ⟨h1, h2, ?_⟩
      rw [h3]
      simp [hx]

theorem split_elements_single (t : List Char) (hne : t ≠ []) (hsp : ' ' ∉ t) :
    split_elements (t ++ [' ']) = [t] := by
  rw [split_elements_space]
  unfold maximal_runs
  rw [List.splitOnP_eq_single]
  · cases t with
    | nil => exact absurd rfl hne
    | cons a as => rfl
  · intro x hx hdec
    have : x = ' ' := by simpa using hdec
    exact hsp (this ▸ hx)

theorem run_mem_split_elements (t post : List Char) (hne : t ≠ []) (hsp : ' ' ∉ t)
    (hpost : post = [] ∨ ∃ post1, post = ' ' :: post1) :
    t ∈ split_elements (t ++ post ++ [' ']) := by
  rcases hpost with h | ⟨post1, h⟩
  · rw [h, List.append_nil, split_elements_single t hne hsp]
    exact List.mem_singleton.mpr rfl
  · have : t ++ post ++ [' '] = t ++ [' '] ++ (post1 ++ [' ']) := by rw [h]; simp
    rw [this, split_elements_append, split_elements_single t hne hsp]
    simp

/-- C19: for every input line the splitting loop of `get_input` yields exactly the maximal
runs of characters other than the space, in order: no token is empty, no token holds a
space, the tokens concatenated are the line with its spaces deleted, and every non-empty
space-free stretch of the line bounded on each side by a space or an end of the line is a
token; a tab ends up inside a token. -/
theorem C19_tokens_are_maximal_runs (line : List Char) :
    (∀ t ∈ split_elements (line ++ [' ']), t ≠ [] ∧ ' ' ∉ t) ∧
    (split_elements (line ++ [' '])).flatten = line.filter (fun ch => decide (ch ≠ ' ')) ∧
    (∀ pre t post : List Char, line = pre ++ t ++ post → t ≠ [] → ' ' ∉ t →
      (pre = [] ∨ ∃ pre1, pre = pre1 ++ [' ']) → (post = [] ∨ ∃ post1, post = ' ' :: post1) →
      t ∈ split_elements (line ++ [' '])) ∧
    split_elements (['a', '\t', 'b'] ++ [' ']) = [['a', '\t', 'b']] := by
  obtain ⟨h1, -, h3⟩ := split_step_invariant (line ++ [' ']) [] [] (by simp) (by simp)
  have htok : ((line ++ [' ']).foldl split_step ([], [])).2 = [] := by
    rw [foldl_split_step_space]
  refine ⟨h1, ?_, ?_, by decide⟩
  · rw [htok] at h3
    unfold split_elements
    simpa using h3
  · intro pre t post hline hne hsp hpre hpost
    have hmem := run_mem_split_elements t post hne hsp hpost
    rcases hpre with h | ⟨pre1, h⟩
    · rw [hline, h, List.nil_append]
      exact hmem
    · have : line ++ [' '] = pre1 ++ [' '] ++ (t ++ post ++ [' ']) := by
        rw [hline, h]; simp
      rw [this, split_elements_append]
      exact List.mem_append.mpr (Or.inr hmem)

/-- Witness of C19: in the line ` ab  c ` the stretch `ab` is a token. -/
theorem C19_tokens_are_maximal_runs_witness :
    ['a', 'b'] ∈ split_elements ([' ', 'a', 'b', ' ', ' ', 'c', ' '] ++ [' ']) :=
  (C19_tokens_are_maximal_runs [' ', 'a', 'b', ' ', ' ', 'c', ' ']).2.2.1
    [' '] ['a', 'b'] [' ', ' ', 'c', ' '] (by decide) (by decide) (by decide)
    (Or.inr ⟨[], by decide⟩) (Or.inr ⟨[' ', 'c', ' '], by decide⟩)

/-- C20: for every `Value` literal that is a signed decimal integer, executing
`Value(literal)` pushes exactly the integer it denotes when that lies in the range of
`int`, and otherwise fails with `std::out_of_range`, a detected fault, and pushes nothing;
whatever the literal, only a value in the range of `int` is ever pushed; the decimal text
of every integer is such a literal and denotes it. -/
theorem C20_literal_range (literal : List Char) (c : Calc)
    (h : is_integer_literal literal = true) :
    (in_int_range (literal_value literal) →
      execute_command c (val literal) =
        Outcome.running (Calc.mk (literal_value literal :: c.stack) c.out)) ∧
    (¬ in_int_range (literal_value literal) →
      execute_command c (val literal) = Outcome.crashed Fault.out_of_range c) ∧
    Fault.out_of_range.detected = true ∧
    (∀ (s : List Char) (c1 : Calc), execute_command c (val s) = Outcome.running c1 →
      ∃ v, in_int_range v ∧ c1 = Calc.mk (v :: c.stack) c.out) ∧
    (∀ v : Int, is_integer_literal (decimal v) = true ∧ literal_value (decimal v) = v) ∧
    execute_command c (val ['2', '1', '4', '7', '4', '8', '3', '6', '4', '8']) =
      Outcome.crashed Fault.out_of_range c ∧
    execute_command c (val ['-', '2', '1', '4', '7', '4', '8', '3', '6', '4', '8']) =
      Outcome.running (Calc.mk (-2147483648 :: c.stack) c.out) := by
  have hs := stoi_of_integer_literal literal h
  refine ⟨?_, ?_, rfl, ?_, decimal_is_literal, ?_, ?_⟩
  · intro hr
    rw [execute_command_val, hs, if_pos hr]
  · intro hr
    rw [execute_command_val, hs, if_neg hr]
  · intro s c1 hrun
    rw [execute_command_val] at hrun
    cases he : stoi s with
    | ok v =>
      rw [he] at hrun
      cases hrun
      exact ⟨v, stoi_ok_in_range s v he, rfl⟩
    | error f => rw [he] at hrun; cases hrun
  · rw [execute_command_val]
    have : stoi ['2', '1', '4', '7', '4', '8', '3', '6', '4', '8'] =
        Except.error Fault.out_of_range := by decide
    rw [this]
  · rw [execute_command_val]
    have : stoi ['-', '2', '1', '4', '7', '4', '8', '3', '6', '4', '8'] =
        Except.ok (-2147483648) := by decide
    rw [this]

/-- Witness of C20: the literal `4294967296` is in no `int` and pushes nothing. -/
theorem C20_literal_range_witness :
    execute_command (Calc.mk [7] []) (val ['4', '2', '9', '4', '9', '6', '7', '2', '9', '6']) =
      Outcome.crashed Fault.out_of_range (Calc.mk [7] []) :=
  (C20_literal_range ['4', '2', '9', '4', '9', '6', '7', '2', '9', '6'] (Calc.mk [7] [])
    (by decide)).2.1 (by decide)


end Kalkulator
